import Mathlib

/-!
Verification of a separate-chaining hash map (`HashMap<KeyType, ValueType, Hash>`
from `hash-table.h`).

The table keeps an insertion-ordered record list (`_content`, prepend on insert)
and a bucket index (`_table : vector<list<iterator>>`) of length `_capacity`;
bucket selection is `hasher(key) % capacity`.  The repository holds two
near-identical revisions of the header; the later revision (self-assignment
guard in `operator=`, `capacityInflation = 2`, `checkExpansion` run after the
physical insertion, grow-only copy-assignment) is embedded here, following the
specification's designation of that revision's behaviour as canonical.

Modelling choices:
* Keys and values are `Nat` (the C++ class is a template; `ValueType()`, the
  default-constructed value, is modelled by `0`).  The hash functor is an
  arbitrary function `Nat → Nat` stored in the table, as in the source.
* A `std::list` node is modelled by an `Entry` carrying a unique identifier
  `id`; a list iterator (a stable node reference) is modelled by that `id`,
  and the bucket index stores identifiers.  `nextId` is the allocator for
  fresh identifiers.
* `size_t` arithmetic is modelled on `Nat`; none of the verified statements
  can reach `2 ^ 64`, so wrap-around is immaterial.
-/

/-- One node of the record store `_content`: a `(key, value)` pair together
with the node identity `id` (standing for the node's address, i.e. the
`std::list` iterator that points at it). -/
structure Entry where
  id : Nat
  key : Nat
  val : Nat
deriving DecidableEq, Repr

/-- The state of `HashMap<KeyType, ValueType, Hash>`: the five data members
of the class, plus `nextId`, the supply of fresh node identities. -/
structure HashMap where
  hasher : Nat → Nat
  content : List Entry
  capacity : Nat
  table : List (List Nat)
  sz : Nat
  nextId : Nat

/-- `static constexpr size_t capacityInflation = 2;` -/
def capacityInflation : Nat := 2

/-- Reading bucket `i` of the index (`_table[i]`); out-of-range reads give
`[]` (they never occur in reachable states, where `table.length = capacity`
and indices are reduced `% capacity`). -/
def bucketGet (t : List (List Nat)) (i : Nat) : List Nat :=
  t[i]?.getD []

/-- `_hasher(key) % _capacity`, the bucket selection used throughout. -/
def HashMap.bucketIdx (m : HashMap) (k : Nat) : Nat :=
  m.hasher k % m.capacity

/-- Dereferencing a stored node reference: find the record-store node with
this identity.  (In C++ this is just following the iterator.) -/
def HashMap.lookupId (m : HashMap) (id : Nat) : Option Entry :=
  m.content.find? (fun e => e.id == id)

/-- The comparison `it->first == key` performed on a bucket element. -/
def HashMap.entryMatches (m : HashMap) (k : Nat) (id : Nat) : Bool :=
  match m.lookupId id with
  | some e => e.key == k
  | none => false

/-- `find(key)`: scan the chain at `_hasher(key) % _capacity` and return the
first node reference whose record's key equals `key`; `none` models the
`end()` sentinel. -/
def HashMap.findId (m : HashMap) (k : Nat) : Option Nat :=
  (bucketGet m.table (m.bucketIdx k)).find? (m.entryMatches k)

/-- Reading `it->second` through a node reference (`0` stands for the
undefined dangling-reference read, which never happens in reachable states). -/
def HashMap.derefVal (m : HashMap) (id : Nat) : Nat :=
  ((m.lookupId id).map (fun e => e.val)).getD 0

/-- The observable result of `find(key)` followed by reading `->second`:
`some v` when the key is present with value `v`, `none` when `find`
returned `end()`. -/
def HashMap.findVal (m : HashMap) (k : Nat) : Option Nat :=
  (m.findId k).map m.derefVal

/-- `size()`. -/
def HashMap.size (m : HashMap) : Nat :=
  m.sz

/-- `hash_function()`. -/
def HashMap.hash_function (m : HashMap) : Nat → Nat :=
  m.hasher

/-- `fillTable()`: `for (it = _content.begin(); it != _content.end(); ++it)
_table[_hasher(it->first) % cap].push_back(it);` — appends every record's
reference into the bucket of its key, starting from the given table `t0`. -/
def fillTableAux (h : Nat → Nat) (cap : Nat) (c : List Entry)
    (t0 : List (List Nat)) : List (List Nat) :=
  c.foldl (fun t e =>
    t.set (h e.key % cap) (bucketGet t (h e.key % cap) ++ [e.id])) t0

/-- `checkExpansion()`: if `size() >= _capacity`, clear the index, multiply
`_capacity` by `capacityInflation`, resize the index and run `fillTable()`. -/
def HashMap.checkExpansion (m : HashMap) : HashMap :=
  if m.capacity ≤ m.sz then
    { m with
      capacity := m.capacity * capacityInflation,
      table := fillTableAux m.hasher (m.capacity * capacityInflation) m.content
        (List.replicate (m.capacity * capacityInflation) []) }
  else m

/-- The shared physical insertion step (`_sz++; _content.push_front(p);
_table[_hasher(p.first) % _capacity].push_back(_content.begin());`).  The
new node gets the fresh identity `m.nextId`. -/
def HashMap.pushRecord (m : HashMap) (k v : Nat) : HashMap :=
  { m with
    sz := m.sz + 1,
    content := ⟨m.nextId, k, v⟩ :: m.content,
    table := m.table.set (m.hasher k % m.capacity)
      (bucketGet m.table (m.hasher k % m.capacity) ++ [m.nextId]),
    nextId := m.nextId + 1 }

/-- `add(p)`: the physical insertion step followed by `checkExpansion()`. -/
def HashMap.add (m : HashMap) (k v : Nat) : HashMap :=
  (m.pushRecord k v).checkExpansion

/-- `insert(p)`: `if (find(p.first) != end()) return; add(p);` -/
def HashMap.insert (m : HashMap) (k v : Nat) : HashMap :=
  match m.findId k with
  | some _ => m
  | none => m.add k v

/-- `erase(key)`: scan the chain at the key's bucket; on the first element
whose record's key matches, unlink that record from the store
(`_content.erase(*it)`), unlink the reference from the chain
(`_table[hash].erase(it)`), decrement `_sz`, and stop. -/
def HashMap.erase (m : HashMap) (k : Nat) : HashMap :=
  let b := m.bucketIdx k
  let chain := bucketGet m.table b
  match chain.find? (m.entryMatches k) with
  | none => m
  | some id =>
      { m with
        content := m.content.eraseP (fun e => e.id == id),
        table := m.table.set b (chain.eraseP (m.entryMatches k)),
        sz := m.sz - 1 }

/-- `at(key)`: `find`, then throw `std::out_of_range` on `end()`, else
return `it->second`. -/
def HashMap.atKey (m : HashMap) (k : Nat) : Except String Nat :=
  match m.findId k with
  | none => .error "No such key exists in map"
  | some id => .ok (m.derefVal id)

/-- `operator[](key)`: `find`; if absent, `add` the key with the
default-constructed value and return a reference to `begin()->second`
(the freshly prepended record); if present, return `it->second`.  The
returned reference is modelled by the node identity. -/
def HashMap.subscriptRef (m : HashMap) (k : Nat) : HashMap × Nat :=
  match m.findId k with
  | none =>
      let m' := m.add k 0
      (m', ((m'.content.head?).map (fun e => e.id)).getD 0)
  | some id => (m, id)

/-- Writing `v` through a value reference obtained from `operator[]` or an
iterator: mutate in place the value of the node with that identity.  (Node
identities are unique in reachable states, so exactly one node changes.) -/
def HashMap.writeVal (m : HashMap) (id v : Nat) : HashMap :=
  { m with
    content := m.content.map (fun e => if e.id == id then ⟨e.id, e.key, v⟩ else e) }

/-- `clear()`: for every record, clear the chain at its key's bucket; then
clear the store and zero `_sz`.  `_capacity` and the index length are kept. -/
def HashMap.clear (m : HashMap) : HashMap :=
  { m with
    table := m.content.foldl (fun t e => t.set (m.bucketIdx e.key) []) m.table,
    content := [],
    sz := 0 }

/-- The default constructor: `_capacity(1), _table(1), _sz(0)`. -/
def HashMap.empty (h : Nat → Nat) : HashMap :=
  { hasher := h, content := [], capacity := 1, table := [[]], sz := 0, nextId := 0 }

/-- The iterator-range constructor: start from the empty table and process
the pairs in order; each step inlines the duplicate check of `find` and,
when new, the body of `add` (including `checkExpansion`), i.e. each step is
exactly `insert`. -/
def HashMap.fromRange (h : Nat → Nat) (l : List (Nat × Nat)) : HashMap :=
  l.foldl (fun m p => m.insert p.1 p.2) (HashMap.empty h)

/-- The initializer-list constructor: `_capacity(input.size() *
capacityInflation)`, empty-input fallback to capacity 1; then each pair in
order is duplicate-checked against its bucket and, when new, physically
inserted (no `checkExpansion` here). -/
def HashMap.fromInit (h : Nat → Nat) (l : List (Nat × Nat)) : HashMap :=
  if l.isEmpty then
    { hasher := h, content := [], capacity := 1, table := [[]], sz := 0, nextId := 0 }
  else
    let cap := l.length * capacityInflation
    l.foldl (fun m p => match m.findId p.1 with
      | some _ => m
      | none => m.pushRecord p.1 p.2)
      { hasher := h, content := [], capacity := cap,
        table := List.replicate cap [], sz := 0, nextId := 0 }

/-- The copy constructor: copy hasher and store, set `_capacity` to
`other.size() * capacityInflation` (fallback 1 when that is 0), build a
fresh index of that length and run `fillTable()`. -/
def HashMap.copy (other : HashMap) : HashMap :=
  let cap0 := other.sz * capacityInflation
  let cap := if cap0 = 0 then 1 else cap0
  { hasher := other.hasher,
    content := other.content,
    capacity := cap,
    table := fillTableAux other.hasher cap other.content (List.replicate cap []),
    sz := other.sz,
    nextId := other.nextId }

/-- `std::vector::resize(n)` on the bucket index: truncate or pad with
empty chains to length `n`. -/
def resizeList (t : List (List Nat)) (n : Nat) : List (List Nat) :=
  t.take n ++ List.replicate (n - t.length) []

/-- `operator=(other)` for `this != &other`: `clear()`; copy `other`'s store
in order; set `_sz`; grow `_capacity` to `other.size() * capacityInflation`
if it is smaller (resizing the index); `fillTable()`.  The hasher member is
not assigned. -/
def HashMap.assign (m other : HashMap) : HashMap :=
  let m1 := m.clear
  let m2 := { m1 with content := other.content, sz := other.sz, nextId := other.nextId }
  let m3 :=
    if m2.capacity < other.sz * capacityInflation then
      { m2 with
        capacity := other.sz * capacityInflation,
        table := resizeList m2.table (other.sz * capacityInflation) }
    else m2
  { m3 with table := fillTableAux m3.hasher m3.capacity m3.content m3.table }

/-- `operator=(other)` when `this == &other`: the guard
`if (this == &other) return *this;` makes self-assignment return the table
unchanged. -/
def HashMap.assignSelf (m : HashMap) : HashMap :=
  m

/-- The list of keys currently stored, in record-store order. -/
def HashMap.keys (m : HashMap) : List Nat :=
  m.content.map (fun e => e.key)

/-- The representation invariant (the spec's §3 data-model invariants):
the index has length `capacity`; `capacity ≥ 1`; `sz` is the record-store
length; node identities and keys are duplicate-free; identities are below
the allocator counter; the multiset of references held by all chains is
exactly the multiset of live node identities (so every live record is
referenced exactly once, by exactly one chain, and the chain lengths sum to
`sz`); and every reference sits in the chain `hasher(key) % capacity` of
its record's key. -/
def HashMap.Inv (m : HashMap) : Prop :=
  m.table.length = m.capacity ∧
  0 < m.capacity ∧
  m.sz = m.content.length ∧
  (m.content.map (fun e => e.id)).Nodup ∧
  (m.content.map (fun e => e.key)).Nodup ∧
  (∀ e ∈ m.content, e.id < m.nextId) ∧
  (m.table.flatten).Perm (m.content.map (fun e => e.id)) ∧
  (∀ i, i < m.table.length → ∀ id ∈ bucketGet m.table i,
    ∃ e ∈ m.content, e.id = id ∧ m.bucketIdx e.key = i)

instance (m : HashMap) : Decidable m.Inv := by
  unfold HashMap.Inv
  infer_instance

/-! ### Bucket-index access lemmas -/

theorem bucketGet_eq_getElem (t : List (List Nat)) (i : Nat) (h : i < t.length) :
    bucketGet t i = t[i] := by
  simp [bucketGet, List.getElem?_eq_getElem h]

theorem bucketGet_of_le (t : List (List Nat)) (i : Nat) (h : t.length ≤ i) :
    bucketGet t i = [] := by
  simp [bucketGet, List.getElem?_eq_none h]

theorem bucketGet_set_self (t : List (List Nat)) (i : Nat) (l : List Nat)
    (h : i < t.length) : bucketGet (t.set i l) i = l := by
  simp [bucketGet, List.getElem?_set_self h]

theorem bucketGet_set_ne (t : List (List Nat)) (i j : Nat) (l : List Nat)
    (h : i ≠ j) : bucketGet (t.set i l) j = bucketGet t j := by
  simp [bucketGet, List.getElem?_set_ne h]

theorem bucketGet_replicate (n i : Nat) :
    bucketGet (List.replicate n ([] : List Nat)) i = [] := by
  rcases lt_or_le i n with h | h
  · rw [bucketGet_eq_getElem _ _ (by simpa using h)]
    simp
  · exact bucketGet_of_le _ _ (by simpa using h)

theorem flatten_set_perm (t : List (List Nat)) (i : Nat) (l : List Nat)
    (h : i < t.length) :
    ((t.set i l).flatten ++ bucketGet t i).Perm (t.flatten ++ l) := by
  have hset : t.set i l = t.take i ++ l :: t.drop (i + 1) := by
    rw [List.set_eq_take_append_cons_drop, if_pos h]
  have hdecomp : t.flatten = (t.take i).flatten ++ (t[i] ++ (t.drop (i + 1)).flatten) := by
    conv_lhs => rw [← List.take_append_drop i t, List.drop_eq_getElem_cons h]
    rw [List.flatten_append, List.flatten_cons]
  rw [bucketGet_eq_getElem t i h, hset, List.perm_iff_count]
  intro a
  rw [hdecomp]
  simp [List.flatten_append, List.count_append]
  omega

theorem fillTableAux_cons (h : Nat → Nat) (cap : Nat) (e : Entry) (c : List Entry)
    (t0 : List (List Nat)) :
    fillTableAux h cap (e :: c) t0 =
      fillTableAux h cap c
        (t0.set (h e.key % cap) (bucketGet t0 (h e.key % cap) ++ [e.id])) := rfl

theorem length_fillTableAux (h : Nat → Nat) (cap : Nat) (c : List Entry)
    (t0 : List (List Nat)) : (fillTableAux h cap c t0).length = t0.length := by
  induction c generalizing t0 with
  | nil => rfl
  | cons e c ih =>
    rw [fillTableAux_cons, ih, List.length_set]

theorem bucketGet_fillTableAux (h : Nat → Nat) (cap : Nat) (c : List Entry)
    (t0 : List (List Nat)) (hlen : t0.length = cap) (hpos : 0 < cap) (i : Nat) :
    bucketGet (fillTableAux h cap c t0) i =
      bucketGet t0 i ++ (c.filter (fun e => h e.key % cap == i)).map (fun e => e.id) := by
  induction c generalizing t0 with
  | nil => simp [fillTableAux]
  | cons e c ih =>
    rw [fillTableAux_cons, ih _ (by rw [List.length_set]; exact hlen)]
    by_cases hb : h e.key % cap = i
    · rw [hb, bucketGet_set_self _ _ _ (by rw [hlen, ← hb]; exact Nat.mod_lt _ hpos)]
      simp [List.filter_cons, hb]
    · rw [bucketGet_set_ne _ _ _ _ hb]
      simp [List.filter_cons, hb]

theorem flatten_fillTableAux_perm (h : Nat → Nat) (cap : Nat) (c : List Entry)
    (t0 : List (List Nat)) (hlen : t0.length = cap) (hpos : 0 < cap) :
    (fillTableAux h cap c t0).flatten.Perm
      (t0.flatten ++ c.map (fun e => e.id)) := by
  induction c generalizing t0 with
  | nil => simp [fillTableAux]
  | cons e c ih =>
    rw [fillTableAux_cons]
    have hlt : h e.key % cap < t0.length := by rw [hlen]; exact Nat.mod_lt _ hpos
    have h1 := ih (t0.set (h e.key % cap)
      (bucketGet t0 (h e.key % cap) ++ [e.id])) (by rw [List.length_set]; exact hlen)
    have h2 := flatten_set_perm t0 (h e.key % cap)
      (bucketGet t0 (h e.key % cap) ++ [e.id]) hlt
    refine h1.trans ?_
    rw [List.perm_iff_count] at h2 ⊢
    intro a
    have h3 := h2 a
    simp [List.count_append, List.count_cons] at h3 ⊢
    omega

theorem bucketGet_mkTable (h : Nat → Nat) (cap : Nat) (c : List Entry)
    (hpos : 0 < cap) (i : Nat) :
    bucketGet (fillTableAux h cap c (List.replicate cap [])) i =
      (c.filter (fun e => h e.key % cap == i)).map (fun e => e.id) := by
  rw [bucketGet_fillTableAux _ _ _ _ (by simp) hpos, bucketGet_replicate]
  simp

theorem flatten_mkTable_perm (h : Nat → Nat) (cap : Nat) (c : List Entry)
    (hpos : 0 < cap) :
    (fillTableAux h cap c (List.replicate cap [])).flatten.Perm
      (c.map (fun e => e.id)) := by
  have h1 := flatten_fillTableAux_perm h cap c (List.replicate cap []) (by simp) hpos
  simpa using h1

/-! ### Projections of the representation invariant -/

theorem HashMap.Inv.tableLen {m : HashMap} (h : m.Inv) :
    m.table.length = m.capacity := h.1

theorem HashMap.Inv.capPos {m : HashMap} (h : m.Inv) : 0 < m.capacity := h.2.1

theorem HashMap.Inv.szEq {m : HashMap} (h : m.Inv) :
    m.sz = m.content.length := h.2.2.1

theorem HashMap.Inv.idsNodup {m : HashMap} (h : m.Inv) :
    (m.content.map (fun e => e.id)).Nodup := h.2.2.2.1

theorem HashMap.Inv.keysNodup {m : HashMap} (h : m.Inv) :
    (m.content.map (fun e => e.key)).Nodup := h.2.2.2.2.1

theorem HashMap.Inv.idsLt {m : HashMap} (h : m.Inv) :
    ∀ e ∈ m.content, e.id < m.nextId := h.2.2.2.2.2.1

theorem HashMap.Inv.refsPerm {m : HashMap} (h : m.Inv) :
    (m.table.flatten).Perm (m.content.map (fun e => e.id)) := h.2.2.2.2.2.2.1

theorem HashMap.Inv.placed {m : HashMap} (h : m.Inv) :
    ∀ i, i < m.table.length → ∀ id ∈ bucketGet m.table i,
      ∃ e ∈ m.content, e.id = id ∧ m.bucketIdx e.key = i := h.2.2.2.2.2.2.2

/-! ### Lookup and find characterization -/

theorem lookupId_of_mem {m : HashMap}
    (hnd : (m.content.map (fun e => e.id)).Nodup) {e : Entry}
    (he : e ∈ m.content) : m.lookupId e.id = some e := by
  rcases hfind : m.lookupId e.id with _ | e'
  · rw [HashMap.lookupId, List.find?_eq_none] at hfind
    exact absurd (by simp : (e.id == e.id) = true) (hfind e he)
  · rw [HashMap.lookupId] at hfind
    have h1 := List.find?_some hfind
    have h2 : e' ∈ m.content := List.mem_of_find?_eq_some hfind
    have h3 : e' = e := List.inj_on_of_nodup_map hnd h2 he (by simpa using h1)
    rw [h3]

theorem entryMatches_true {m : HashMap} {k id : Nat}
    (h : m.entryMatches k id = true) :
    ∃ e ∈ m.content, e.id = id ∧ e.key = k := by
  rw [HashMap.entryMatches] at h
  rcases hl : m.lookupId id with _ | e
  · rw [hl] at h; exact absurd h (by simp)
  · rw [hl] at h
    rw [HashMap.lookupId] at hl
    refine ⟨e, List.mem_of_find?_eq_some hl, ?_, by simpa using h⟩
    have := List.find?_some hl
    simpa using this

theorem entryMatches_of_mem {m : HashMap}
    (hnd : (m.content.map (fun e => e.id)).Nodup) {e : Entry}
    (he : e ∈ m.content) (k : Nat) :
    m.entryMatches k e.id = (e.key == k) := by
  rw [HashMap.entryMatches, lookupId_of_mem hnd he]

theorem id_mem_bucket_of_mem {m : HashMap} (hinv : m.Inv) {e : Entry}
    (he : e ∈ m.content) :
    e.id ∈ bucketGet m.table (m.bucketIdx e.key) := by
  have h1 : e.id ∈ m.table.flatten := by
    rw [hinv.refsPerm.mem_iff]
    exact List.mem_map_of_mem (fun e => e.id) he
  rw [List.mem_flatten] at h1
  obtain ⟨l, hl, hmem⟩ := h1
  obtain ⟨i, hi, hget⟩ := List.mem_iff_getElem.mp hl
  have h2 : e.id ∈ bucketGet m.table i := by
    rw [bucketGet_eq_getElem _ _ hi, hget]; exact hmem
  obtain ⟨e', he', hid, hbkt⟩ := hinv.placed i hi e.id h2
  have h3 : e' = e := List.inj_on_of_nodup_map hinv.idsNodup he' he hid
  rw [h3] at hbkt
  rw [hbkt]
  exact h2

theorem findId_eq_some_of_mem {m : HashMap} (hinv : m.Inv) {e : Entry}
    (he : e ∈ m.content) : m.findId e.key = some e.id := by
  have hmem := id_mem_bucket_of_mem hinv he
  have hsome : (m.findId e.key).isSome = true := by
    rw [HashMap.findId, List.find?_isSome]
    exact ⟨e.id, hmem, by rw [entryMatches_of_mem hinv.idsNodup he]; simp⟩
  rcases hfind : m.findId e.key with _ | id₀
  · rw [hfind] at hsome; exact absurd hsome (by simp)
  · have hpred : m.entryMatches e.key id₀ = true :=
      List.find?_some hfind
    obtain ⟨e₀, he₀, hid₀, hkey₀⟩ := entryMatches_true hpred
    have : e₀ = e := List.inj_on_of_nodup_map hinv.keysNodup he₀ he hkey₀
    rw [← hid₀, this]

theorem findId_none_iff {m : HashMap} (hinv : m.Inv) {k : Nat} :
    m.findId k = none ↔ ∀ e ∈ m.content, e.key ≠ k := by
  constructor
  · intro hnone e he hkey
    rw [← hkey] at hnone
    rw [findId_eq_some_of_mem hinv he] at hnone
    exact Option.noConfusion hnone
  · intro hall
    rcases hfind : m.findId k with _ | id₀
    · rfl
    · have hpred : m.entryMatches k id₀ = true := List.find?_some hfind
      obtain ⟨e₀, he₀, _, hkey₀⟩ := entryMatches_true hpred
      exact absurd hkey₀ (hall e₀ he₀)

theorem findVal_of_mem {m : HashMap} (hinv : m.Inv) {e : Entry}
    (he : e ∈ m.content) : m.findVal e.key = some e.val := by
  rw [HashMap.findVal, findId_eq_some_of_mem hinv he]
  simp [HashMap.derefVal, lookupId_of_mem hinv.idsNodup he]

theorem findVal_none_iff {m : HashMap} (hinv : m.Inv) {k : Nat} :
    m.findVal k = none ↔ ∀ e ∈ m.content, e.key ≠ k := by
  rw [HashMap.findVal, Option.map_eq_none']
  exact findId_none_iff hinv

/-! ### Invariant preservation -/

theorem inv_empty (h : Nat → Nat) : (HashMap.empty h).Inv := by
  refine ⟨rfl, Nat.one_pos, rfl, List.nodup_nil, List.nodup_nil,
    by intro e he; exact absurd he (List.not_mem_nil e),
    by simp [HashMap.empty], ?_⟩
  intro i hi id hid
  have hi0 : i = 0 := by
    simp [HashMap.empty] at hi
    omega
  subst hi0
  simp [HashMap.empty, bucketGet] at hid

theorem inv_pushRecord {m : HashMap} (hinv : m.Inv) {k v : Nat}
    (habs : ∀ e ∈ m.content, e.key ≠ k) : (m.pushRecord k v).Inv := by
  have hb : m.hasher k % m.capacity < m.table.length := by
    rw [hinv.tableLen]; exact Nat.mod_lt _ hinv.capPos
  refine ⟨?_, ?_, ?_, ?_, ?_, ?_, ?_, ?_⟩
  · simp only [HashMap.pushRecord, List.length_set]
    exact hinv.tableLen
  · exact hinv.capPos
  · simp only [HashMap.pushRecord, List.length_cons]
    rw [hinv.szEq]
  · simp only [HashMap.pushRecord, List.map_cons, List.nodup_cons]
    refine ⟨?_, hinv.idsNodup⟩
    intro hmem
    obtain ⟨e, he, hid⟩ := List.mem_map.mp hmem
    exact absurd hid (Nat.ne_of_lt (hinv.idsLt e he))
  · simp only [HashMap.pushRecord, List.map_cons, List.nodup_cons]
    refine ⟨?_, hinv.keysNodup⟩
    intro hmem
    obtain ⟨e, he, hkey⟩ := List.mem_map.mp hmem
    exact absurd hkey (habs e he)
  · simp only [HashMap.pushRecord]
    intro e he
    rcases List.mem_cons.mp he with h1 | h1
    · rw [h1]; exact Nat.lt_succ_self _
    · exact Nat.lt_succ_of_lt (hinv.idsLt e h1)
  · show (m.table.set (m.hasher k % m.capacity)
        (bucketGet m.table (m.hasher k % m.capacity) ++ [m.nextId])).flatten.Perm
        (m.nextId :: m.content.map (fun e => e.id))
    have h1 := flatten_set_perm m.table (m.hasher k % m.capacity)
      (bucketGet m.table (m.hasher k % m.capacity) ++ [m.nextId]) hb
    have h2 := hinv.refsPerm
    rw [List.perm_iff_count] at h1 h2 ⊢
    intro a
    have h3 := h1 a
    have h4 := h2 a
    simp only [List.count_append, List.count_cons, List.count_nil] at h3 h4 ⊢
    omega
  · intro i hi id hid
    simp only [HashMap.pushRecord, List.length_set] at hi
    have hbidx : (m.pushRecord k v).bucketIdx = m.bucketIdx := rfl
    by_cases hcase : m.hasher k % m.capacity = i
    · subst hcase
      rw [show (m.pushRecord k v).table = m.table.set (m.hasher k % m.capacity)
          (bucketGet m.table (m.hasher k % m.capacity) ++ [m.nextId]) from rfl,
        bucketGet_set_self _ _ _ hb] at hid
      rcases List.mem_append.mp hid with h1 | h1
      · obtain ⟨e, he, hide, hbkt⟩ := hinv.placed _ hb id h1
        exact ⟨e, by
          simp only [HashMap.pushRecord]
          exact List.mem_cons_of_mem _ he, hide, by rw [hbidx]; exact hbkt⟩
      · have hid' : id = m.nextId := by simpa using h1
        refine ⟨⟨m.nextId, k, v⟩, ?_, hid'.symm, ?_⟩
        · simp only [HashMap.pushRecord]
          exact List.mem_cons_self _ _
        · rw [hbidx]
          rfl
    · rw [show (m.pushRecord k v).table = m.table.set (m.hasher k % m.capacity)
          (bucketGet m.table (m.hasher k % m.capacity) ++ [m.nextId]) from rfl,
        bucketGet_set_ne _ _ _ _ hcase] at hid
      obtain ⟨e, he, hide, hbkt⟩ := hinv.placed i hi id hid
      exact ⟨e, by
        simp only [HashMap.pushRecord]
        exact List.mem_cons_of_mem _ he, hide, by rw [hbidx]; exact hbkt⟩

theorem bucket_sublist_flatten (t : List (List Nat)) (i : Nat)
    (h : i < t.length) : (bucketGet t i).Sublist t.flatten := by
  have hdecomp : t.flatten = (t.take i).flatten ++ (t[i] ++ (t.drop (i + 1)).flatten) := by
    conv_lhs => rw [← List.take_append_drop i t, List.drop_eq_getElem_cons h]
    rw [List.flatten_append, List.flatten_cons]
  rw [bucketGet_eq_getElem t i h, hdecomp]
  exact (List.sublist_append_left t[i] _).trans
    (List.sublist_append_right (t.take i).flatten _)

theorem bucketGet_fillTableAux_empty (h : Nat → Nat) (cap : Nat) (c : List Entry)
    (t0 : List (List Nat)) (hlen : t0.length = cap) (hpos : 0 < cap)
    (ht0 : ∀ i, bucketGet t0 i = []) (i : Nat) :
    bucketGet (fillTableAux h cap c t0) i =
      (c.filter (fun e => h e.key % cap == i)).map (fun e => e.id) := by
  rw [bucketGet_fillTableAux h cap c t0 hlen hpos i, ht0 i]
  rfl

theorem flatten_fillTableAux_empty_perm (h : Nat → Nat) (cap : Nat) (c : List Entry)
    (t0 : List (List Nat)) (hlen : t0.length = cap) (hpos : 0 < cap)
    (ht0 : ∀ i, bucketGet t0 i = []) :
    (fillTableAux h cap c t0).flatten.Perm (c.map (fun e => e.id)) := by
  have h1 := flatten_fillTableAux_perm h cap c t0 hlen hpos
  have h2 : t0.flatten = [] := by
    rw [List.flatten_eq_nil_iff]
    intro l hl
    obtain ⟨i, hi, hget⟩ := List.mem_iff_getElem.mp hl
    rw [← hget, ← bucketGet_eq_getElem t0 i hi]
    exact ht0 i
  rw [h2] at h1
  simpa using h1

/-- The representation invariant holds for any table whose bucket index is
rebuilt from scratch by `fillTable()` over a duplicate-free store. -/
theorem inv_fillEmpty (h : Nat → Nat) (cap : Nat) (c : List Entry) (sz nid : Nat)
    (t0 : List (List Nat)) (hlen : t0.length = cap)
    (ht0 : ∀ i, bucketGet t0 i = []) (hpos : 0 < cap) (hsz : sz = c.length)
    (hids : (c.map (fun e => e.id)).Nodup)
    (hkeys : (c.map (fun e => e.key)).Nodup)
    (hlt : ∀ e ∈ c, e.id < nid) :
    HashMap.Inv ⟨h, c, cap, fillTableAux h cap c t0, sz, nid⟩ := by
  refine ⟨?_, hpos, hsz, hids, hkeys, hlt, ?_, ?_⟩
  · rw [show (⟨h, c, cap, fillTableAux h cap c t0, sz, nid⟩ : HashMap).table =
      fillTableAux h cap c t0 from rfl, length_fillTableAux, hlen]
  · exact flatten_fillTableAux_empty_perm h cap c t0 hlen hpos ht0
  · intro i hi id hid
    rw [show (⟨h, c, cap, fillTableAux h cap c t0, sz, nid⟩ : HashMap).table =
      fillTableAux h cap c t0 from rfl,
      bucketGet_fillTableAux_empty h cap c t0 hlen hpos ht0 i] at hid
    obtain ⟨e, he, hide⟩ := List.mem_map.mp hid
    have hef := List.mem_filter.mp he
    refine ⟨e, hef.1, hide, ?_⟩
    show h e.key % cap = i
    simpa using hef.2

theorem inv_checkExpansion {m : HashMap} (hinv : m.Inv) : m.checkExpansion.Inv := by
  rw [HashMap.checkExpansion]
  by_cases hc : m.capacity ≤ m.sz
  · rw [if_pos hc]
    have hpos : 0 < m.capacity * capacityInflation :=
      Nat.mul_pos hinv.capPos (by norm_num [capacityInflation])
    exact inv_fillEmpty m.hasher (m.capacity * capacityInflation) m.content m.sz
      m.nextId (List.replicate (m.capacity * capacityInflation) [])
      (List.length_replicate _ _) (bucketGet_replicate _) hpos hinv.szEq
      hinv.idsNodup hinv.keysNodup hinv.idsLt
  · rw [if_neg hc]
    exact hinv

theorem inv_add {m : HashMap} (hinv : m.Inv) {k : Nat} (v : Nat)
    (habs : ∀ e ∈ m.content, e.key ≠ k) : (m.add k v).Inv :=
  inv_checkExpansion (inv_pushRecord hinv habs)

theorem inv_insert {m : HashMap} (hinv : m.Inv) (k v : Nat) :
    (m.insert k v).Inv := by
  rcases hf : m.findId k with _ | id
  · have habs := (findId_none_iff hinv).mp hf
    simpa only [HashMap.insert, hf] using inv_add hinv v habs
  · simpa only [HashMap.insert, hf] using hinv

theorem chain_nodup {m : HashMap} (hinv : m.Inv) (i : Nat)
    (hi : i < m.table.length) : (bucketGet m.table i).Nodup :=
  (bucket_sublist_flatten m.table i hi).nodup
    (hinv.refsPerm.symm.nodup hinv.idsNodup)

theorem mem_of_mem_middle_of_ne {α : Type} {l1 l2 : List α} {e e' : α}
    (h : e' ∈ l1 ++ e :: l2) (hne : e' ≠ e) : e' ∈ l1 ++ l2 := by
  rcases List.mem_append.mp h with h1 | h1
  · exact List.mem_append_left _ h1
  · rcases List.mem_cons.mp h1 with h2 | h2
    · exact absurd h2 hne
    · exact List.mem_append_right _ h2


theorem inv_erase {m : HashMap} (hinv : m.Inv) (k : Nat) : (m.erase k).Inv := by
  rcases hf : (bucketGet m.table (m.bucketIdx k)).find? (m.entryMatches k) with _ | id
  · simpa only [HashMap.erase, hf] using hinv
  · have hpred : m.entryMatches k id = true := List.find?_some hf
    obtain ⟨e, he, hide, hkey⟩ := entryMatches_true hpred
    have hidchain : id ∈ bucketGet m.table (m.bucketIdx k) :=
      List.mem_of_find?_eq_some hf
    have hb : m.bucketIdx k < m.table.length := by
      rw [hinv.tableLen]; exact Nat.mod_lt _ hinv.capPos
    obtain ⟨e₀, L1, L2, hL1, hpe, hcon, hcon'⟩ :=
      List.exists_of_eraseP (p := fun e => e.id == id) he (by simp [hide])
    have he₀ : e₀ = e := by
      refine List.inj_on_of_nodup_map hinv.idsNodup ?_ he ?_
      · rw [hcon]; exact List.mem_append_right _ (List.mem_cons_self _ _)
      · rw [hide]; simpa using hpe
    have hide₀ : e₀.id = id := by simpa using hpe
    have hkey₀ : e₀.key = k := by rw [he₀]; exact hkey
    obtain ⟨a, c1, c2, hc1, hpa, hchain, hchain'⟩ :=
      List.exists_of_eraseP hidchain hpred
    have haid : a = id := by
      obtain ⟨ea, hea, heaid, heakey⟩ := entryMatches_true hpa
      have hea' : ea = e := List.inj_on_of_nodup_map hinv.keysNodup hea he
        (by rw [heakey, hkey])
      rw [← heaid, hea', ← hide]
    rw [haid] at hchain
    have hidnot : id ∉ c1 ++ c2 := by
      have hnd : (bucketGet m.table (m.bucketIdx k)).Nodup :=
        chain_nodup hinv _ hb
      rw [hchain] at hnd
      intro hmem
      have h1 : List.count id (c1 ++ id :: c2) = 1 :=
        List.count_eq_one_of_mem hnd
          (List.mem_append_right _ (List.mem_cons_self _ _))
      have h2 : 1 ≤ List.count id (c1 ++ c2) := List.one_le_count_iff.mpr hmem
      simp only [List.count_append, List.count_cons] at h1 h2
      simp at h1
      omega
    simp only [HashMap.erase, hf]
    refine ⟨?_, hinv.capPos, ?_, ?_, ?_, ?_, ?_, ?_⟩
    · simp only [List.length_set]
      exact hinv.tableLen
    · show m.sz - 1 = (m.content.eraseP (fun e => e.id == id)).length
      have h1 := hinv.szEq
      rw [hcon] at h1
      rw [hcon']
      simp only [List.length_append, List.length_cons] at h1 ⊢
      omega
    · exact ((List.eraseP_sublist m.content).map (fun e => e.id)).nodup hinv.idsNodup
    · exact ((List.eraseP_sublist m.content).map (fun e => e.key)).nodup hinv.keysNodup
    · intro e' he'
      exact hinv.idsLt e' ((List.eraseP_sublist m.content).subset he')
    · show (m.table.set (m.bucketIdx k)
        ((bucketGet m.table (m.bucketIdx k)).eraseP (m.entryMatches k))).flatten.Perm
        ((m.content.eraseP (fun e => e.id == id)).map (fun e => e.id))
      have h1 := flatten_set_perm m.table (m.bucketIdx k)
        ((bucketGet m.table (m.bucketIdx k)).eraseP (m.entryMatches k)) hb
      have h2 := hinv.refsPerm
      rw [List.perm_iff_count] at h1 h2 ⊢
      intro x
      have h3 := h1 x
      have h4 := h2 x
      rw [hchain'] at h3 ⊢
      rw [hchain] at h3
      rw [hcon']
      rw [hcon] at h4
      simp only [List.count_append, List.count_cons, List.map_append,
        List.map_cons, hide₀] at h3 h4 ⊢
      omega
    · intro i hi id' hid'
      simp only [List.length_set] at hi
      by_cases hcase : m.bucketIdx k = i
      · subst hcase
        rw [show ({ m with
            content := m.content.eraseP (fun e => e.id == id),
            table := m.table.set (m.bucketIdx k)
              ((bucketGet m.table (m.bucketIdx k)).eraseP (m.entryMatches k)),
            sz := m.sz - 1 } : HashMap).table = m.table.set (m.bucketIdx k)
              ((bucketGet m.table (m.bucketIdx k)).eraseP (m.entryMatches k)) from rfl,
          bucketGet_set_self _ _ _ hb, hchain'] at hid'
        have hmemchain : id' ∈ bucketGet m.table (m.bucketIdx k) := by
          rw [hchain]
          rcases List.mem_append.mp hid' with h1 | h1
          · exact List.mem_append_left _ h1
          · exact List.mem_append_right _ (List.mem_cons_of_mem _ h1)
        obtain ⟨e', he', hid'e, hbkt⟩ := hinv.placed _ hb id' hmemchain
        have hne : e' ≠ e₀ := by
          intro hcontra
          rw [hcontra, hide₀] at hid'e
          rw [← hid'e] at hid'
          exact hidnot hid'
        refine ⟨e', ?_, hid'e, hbkt⟩
        show e' ∈ m.content.eraseP (fun e => e.id == id)
        rw [hcon']
        rw [hcon] at he'
        exact mem_of_mem_middle_of_ne he' hne
      · rw [show ({ m with
            content := m.content.eraseP (fun e => e.id == id),
            table := m.table.set (m.bucketIdx k)
              ((bucketGet m.table (m.bucketIdx k)).eraseP (m.entryMatches k)),
            sz := m.sz - 1 } : HashMap).table = m.table.set (m.bucketIdx k)
              ((bucketGet m.table (m.bucketIdx k)).eraseP (m.entryMatches k)) from rfl,
          bucketGet_set_ne _ _ _ _ hcase] at hid'
        obtain ⟨e', he', hid'e, hbkt⟩ := hinv.placed i hi id' hid'
        have hne : e' ≠ e₀ := by
          intro hcontra
          rw [hcontra, hkey₀] at hbkt
          exact hcase hbkt
        refine ⟨e', ?_, hid'e, hbkt⟩
        show e' ∈ m.content.eraseP (fun e => e.id == id)
        rw [hcon']
        rw [hcon] at he'
        exact mem_of_mem_middle_of_ne he' hne

theorem bucketGet_set_nil (t : List (List Nat)) (i : Nat) :
    bucketGet (t.set i []) i = [] := by
  rcases lt_or_le i t.length with h | h
  · exact bucketGet_set_self t i [] h
  · exact bucketGet_of_le _ _ (by rw [List.length_set]; exact h)

theorem clearFold_len (g : Entry → Nat) (c : List Entry) (t : List (List Nat)) :
    (c.foldl (fun t e => t.set (g e) []) t).length = t.length := by
  induction c generalizing t with
  | nil => rfl
  | cons e c ih => rw [List.foldl_cons, ih, List.length_set]

theorem clearFold_empty (g : Entry → Nat) (c : List Entry) (t : List (List Nat))
    (i : Nat) (h : bucketGet t i = []) :
    bucketGet (c.foldl (fun t e => t.set (g e) []) t) i = [] := by
  induction c generalizing t with
  | nil => exact h
  | cons e c ih =>
    rw [List.foldl_cons]
    refine ih _ ?_
    by_cases hcase : g e = i
    · rw [← hcase]; exact bucketGet_set_nil t (g e)
    · rw [bucketGet_set_ne _ _ _ _ hcase]; exact h

theorem clearFold_mem (g : Entry → Nat) (c : List Entry) (t : List (List Nat))
    {e : Entry} (he : e ∈ c) :
    bucketGet (c.foldl (fun t e => t.set (g e) []) t) (g e) = [] := by
  induction c generalizing t with
  | nil => exact absurd he (List.not_mem_nil e)
  | cons e' c ih =>
    rw [List.foldl_cons]
    by_cases hcase : g e' = g e
    · refine clearFold_empty g c _ _ ?_
      rw [← hcase]; exact bucketGet_set_nil t (g e')
    · rcases List.mem_cons.mp he with h1 | h1
      · exact absurd (congrArg g h1.symm) hcase
      · exact ih _ h1

theorem clear_buckets {m : HashMap} (hinv : m.Inv) (i : Nat) :
    bucketGet (m.clear).table i = [] := by
  show bucketGet
    (m.content.foldl (fun t e => t.set (m.bucketIdx e.key) []) m.table) i = []
  rcases hchain : bucketGet m.table i with _ | ⟨id, rest⟩
  · exact clearFold_empty _ _ _ _ hchain
  · have hi : i < m.table.length := by
      by_contra hge
      rw [bucketGet_of_le _ _ (le_of_not_lt hge)] at hchain
      exact List.noConfusion hchain
    have hmem : id ∈ bucketGet m.table i := by
      rw [hchain]; exact List.mem_cons_self _ _
    obtain ⟨e, he, _, hbkt⟩ := hinv.placed i hi id hmem
    rw [← hbkt]
    exact clearFold_mem (fun e => m.bucketIdx e.key) m.content m.table he

theorem clear_table_len (m : HashMap) :
    (m.clear).table.length = m.table.length :=
  clearFold_len (fun e => m.bucketIdx e.key) m.content m.table

theorem bucketGet_all_nil_iff (t : List (List Nat)) :
    (∀ i, bucketGet t i = []) ↔ ∀ l ∈ t, l = [] := by
  constructor
  · intro h l hl
    obtain ⟨i, hi, hget⟩ := List.mem_iff_getElem.mp hl
    rw [← hget, ← bucketGet_eq_getElem t i hi]
    exact h i
  · intro h i
    rcases lt_or_le i t.length with hi | hi
    · rw [bucketGet_eq_getElem t i hi]
      exact h _ (List.getElem_mem hi)
    · exact bucketGet_of_le t i hi

theorem inv_clear {m : HashMap} (hinv : m.Inv) : m.clear.Inv := by
  refine ⟨?_, hinv.capPos, rfl, List.nodup_nil, List.nodup_nil,
    ?_, ?_, ?_⟩
  · rw [clear_table_len, hinv.tableLen]
    rfl
  · intro e he
    exact absurd he (List.not_mem_nil e)
  · have hflat : (m.clear).table.flatten = [] := by
      rw [List.flatten_eq_nil_iff]
      exact (bucketGet_all_nil_iff _).mp (clear_buckets hinv)
    rw [hflat]
    show List.Perm [] (List.map (fun e => e.id) ([] : List Entry))
    simp
  · intro i hi id hid
    rw [clear_buckets hinv i] at hid
    exact absurd hid (List.not_mem_nil id)

theorem writeVal_entry_id (e : Entry) (id v : Nat) :
    (if e.id == id then (⟨e.id, e.key, v⟩ : Entry) else e).id = e.id := by
  split <;> rfl

theorem writeVal_entry_key (e : Entry) (id v : Nat) :
    (if e.id == id then (⟨e.id, e.key, v⟩ : Entry) else e).key = e.key := by
  split <;> rfl

theorem inv_writeVal {m : HashMap} (hinv : m.Inv) (id v : Nat) :
    (m.writeVal id v).Inv := by
  have hmapid : (m.writeVal id v).content.map (fun e => e.id) =
      m.content.map (fun e => e.id) := by
    show (m.content.map fun e =>
      if e.id == id then (⟨e.id, e.key, v⟩ : Entry) else e).map (fun e => e.id) = _
    rw [List.map_map]
    exact List.map_congr_left (fun a _ => writeVal_entry_id a id v)
  have hmapkey : (m.writeVal id v).content.map (fun e => e.key) =
      m.content.map (fun e => e.key) := by
    show (m.content.map fun e =>
      if e.id == id then (⟨e.id, e.key, v⟩ : Entry) else e).map (fun e => e.key) = _
    rw [List.map_map]
    exact List.map_congr_left (fun a _ => writeVal_entry_key a id v)
  refine ⟨hinv.tableLen, hinv.capPos, ?_, ?_, ?_, ?_, ?_, ?_⟩
  · show m.sz = ((m.writeVal id v).content).length
    have hlen : ((m.writeVal id v).content).length = m.content.length := by
      show (m.content.map _).length = _
      rw [List.length_map]
    rw [hlen]
    exact hinv.szEq
  · rw [hmapid]; exact hinv.idsNodup
  · rw [hmapkey]; exact hinv.keysNodup
  · intro e' he'
    obtain ⟨e, he, hmap⟩ := List.mem_map.mp he'
    show e'.id < m.nextId
    rw [← hmap, writeVal_entry_id]
    exact hinv.idsLt e he
  · show m.table.flatten.Perm ((m.writeVal id v).content.map (fun e => e.id))
    rw [hmapid]
    exact hinv.refsPerm
  · intro i hi id' hid'
    obtain ⟨e, he, hide, hbkt⟩ := hinv.placed i hi id' hid'
    refine ⟨if e.id == id then (⟨e.id, e.key, v⟩ : Entry) else e, ?_, ?_, ?_⟩
    · exact List.mem_map_of_mem _ he
    · rw [writeVal_entry_id]; exact hide
    · show m.bucketIdx (if e.id == id then
        (⟨e.id, e.key, v⟩ : Entry) else e).key = i
      rw [writeVal_entry_key]
      exact hbkt

theorem inv_copy {m : HashMap} (hinv : m.Inv) : m.copy.Inv := by
  simp only [HashMap.copy]
  have hpos : 0 < (if m.sz * capacityInflation = 0 then 1
      else m.sz * capacityInflation) := by
    split
    · exact Nat.one_pos
    · exact Nat.pos_of_ne_zero (by assumption)
  exact inv_fillEmpty m.hasher _ m.content m.sz m.nextId _
    (List.length_replicate _ _) (bucketGet_replicate _) hpos hinv.szEq
    hinv.idsNodup hinv.keysNodup hinv.idsLt

theorem resizeList_length (t : List (List Nat)) (n : Nat)
    (h : t.length ≤ n) : (resizeList t n).length = n := by
  rw [resizeList, List.length_append, List.length_replicate,
    List.take_of_length_le h]
  omega

theorem resizeList_buckets (t : List (List Nat)) (n : Nat)
    (h : ∀ i, bucketGet t i = []) (i : Nat) :
    bucketGet (resizeList t n) i = [] := by
  refine (bucketGet_all_nil_iff _).mpr ?_ i
  intro l hl
  rcases List.mem_append.mp hl with h1 | h1
  · exact (bucketGet_all_nil_iff t).mp h l ((List.take_sublist n t).subset h1)
  · exact List.eq_of_mem_replicate h1

theorem inv_fillFinal (m3 : HashMap) (hlen : m3.table.length = m3.capacity)
    (hbkt : ∀ i, bucketGet m3.table i = []) (hpos : 0 < m3.capacity)
    (hsz : m3.sz = m3.content.length)
    (hids : (m3.content.map (fun e => e.id)).Nodup)
    (hkeys : (m3.content.map (fun e => e.key)).Nodup)
    (hlt : ∀ e ∈ m3.content, e.id < m3.nextId) :
    HashMap.Inv { m3 with
      table := fillTableAux m3.hasher m3.capacity m3.content m3.table } :=
  inv_fillEmpty m3.hasher m3.capacity m3.content m3.sz m3.nextId m3.table
    hlen hbkt hpos hsz hids hkeys hlt

theorem inv_assign {a b : HashMap} (ha : a.Inv) (hb : b.Inv) :
    (a.assign b).Inv := by
  have hclrlen : (a.clear).table.length = a.capacity := by
    rw [clear_table_len]; exact ha.tableLen
  have hclrbkt := clear_buckets ha
  rw [HashMap.assign]
  refine inv_fillFinal _ ?_ ?_ ?_ ?_ ?_ ?_ ?_
  · split
    · next h =>
      replace h : a.capacity < b.sz * capacityInflation := h
      exact resizeList_length _ _ (by rw [hclrlen]; exact Nat.le_of_lt h)
    · exact hclrlen
  · split
    · exact resizeList_buckets _ _ hclrbkt
    · exact hclrbkt
  · split
    · next h =>
      replace h : a.capacity < b.sz * capacityInflation := h
      have hcp := ha.capPos
      show 0 < b.sz * capacityInflation
      omega
    · exact ha.capPos
  · split
    · exact hb.szEq
    · exact hb.szEq
  · split
    · exact hb.idsNodup
    · exact hb.idsNodup
  · split
    · exact hb.keysNodup
    · exact hb.keysNodup
  · split
    · exact hb.idsLt
    · exact hb.idsLt

theorem inv_assignSelf {m : HashMap} (hinv : m.Inv) : m.assignSelf.Inv := hinv

theorem inv_fromRange (h : Nat → Nat) (l : List (Nat × Nat)) :
    (HashMap.fromRange h l).Inv := by
  rw [HashMap.fromRange]
  have hgen : ∀ (l : List (Nat × Nat)) (m : HashMap), m.Inv →
      (l.foldl (fun m p => m.insert p.1 p.2) m).Inv := by
    intro l
    induction l with
    | nil => intro m hm; exact hm
    | cons p l ih =>
      intro m hm
      rw [List.foldl_cons]
      exact ih _ (inv_insert hm p.1 p.2)
  exact hgen l _ (inv_empty h)

theorem inv_fromInit (h : Nat → Nat) (l : List (Nat × Nat)) :
    (HashMap.fromInit h l).Inv := by
  rw [HashMap.fromInit]
  by_cases hl : l.isEmpty
  · rw [if_pos hl]
    exact inv_empty h
  · rw [if_neg hl]
    have hstep : ∀ (l' : List (Nat × Nat)) (m : HashMap), m.Inv →
        (l'.foldl (fun m p => match m.findId p.1 with
          | some _ => m
          | none => m.pushRecord p.1 p.2) m).Inv := by
      intro l'
      induction l' with
      | nil => intro m hm; exact hm
      | cons p l' ih =>
        intro m hm
        rw [List.foldl_cons]
        rcases hf : m.findId p.1 with _ | id
        · have habs := (findId_none_iff hm).mp hf
          exact ih _ (inv_pushRecord hm habs)
        · exact ih _ hm
    have hpos : 0 < l.length * capacityInflation := by
      have : l.length ≠ 0 := by
        intro hzero
        rw [List.isEmpty_iff_length_eq_zero] at hl
        exact hl hzero
      have h2 : 0 < l.length := Nat.pos_of_ne_zero this
      rw [capacityInflation]
      omega
    refine hstep l _ ?_
    refine ⟨?_, hpos, rfl, List.nodup_nil, List.nodup_nil, ?_, ?_, ?_⟩
    · exact List.length_replicate _ _
    · intro e he
      exact absurd he (List.not_mem_nil e)
    · show (List.replicate (l.length * capacityInflation)
        ([] : List Nat)).flatten.Perm (List.map (fun e => e.id) ([] : List Entry))
      simp
    · intro i hi id hid
      have hid' : id ∈ bucketGet
          (List.replicate (l.length * capacityInflation) ([] : List Nat)) i := hid
      rw [bucketGet_replicate] at hid'
      exact absurd hid' (List.not_mem_nil id)

theorem inv_subscriptRef {m : HashMap} (hinv : m.Inv) (k : Nat) :
    (m.subscriptRef k).1.Inv := by
  rcases hf : m.findId k with _ | id
  · have habs := (findId_none_iff hinv).mp hf
    simpa only [HashMap.subscriptRef, hf] using inv_add hinv 0 habs
  · simpa only [HashMap.subscriptRef, hf] using hinv

/-! ### Behaviour of the operations -/

theorem checkExpansion_content (m : HashMap) :
    (m.checkExpansion).content = m.content := by
  rw [HashMap.checkExpansion]; split <;> rfl

theorem checkExpansion_sz (m : HashMap) : (m.checkExpansion).sz = m.sz := by
  rw [HashMap.checkExpansion]; split <;> rfl

theorem checkExpansion_hasher (m : HashMap) :
    (m.checkExpansion).hasher = m.hasher := by
  rw [HashMap.checkExpansion]; split <;> rfl

theorem checkExpansion_nextId (m : HashMap) :
    (m.checkExpansion).nextId = m.nextId := by
  rw [HashMap.checkExpansion]; split <;> rfl

theorem add_content (m : HashMap) (k v : Nat) :
    (m.add k v).content = ⟨m.nextId, k, v⟩ :: m.content := by
  rw [HashMap.add, checkExpansion_content]; rfl

theorem add_sz (m : HashMap) (k v : Nat) : (m.add k v).sz = m.sz + 1 := by
  rw [HashMap.add, checkExpansion_sz]; rfl

theorem insert_of_present {m : HashMap} (hinv : m.Inv) {k : Nat} (v : Nat)
    (hpres : ∃ e ∈ m.content, e.key = k) : m.insert k v = m := by
  obtain ⟨e, he, hkey⟩ := hpres
  have hf : m.findId k = some e.id := by
    rw [← hkey]; exact findId_eq_some_of_mem hinv he
  simp only [HashMap.insert, hf]

theorem insert_of_absent_findVal {m : HashMap} (hinv : m.Inv) {k : Nat}
    (v : Nat) (habs : ∀ e ∈ m.content, e.key ≠ k) :
    (m.insert k v).findVal k = some v := by
  have hf : m.findId k = none := (findId_none_iff hinv).mpr habs
  simp only [HashMap.insert, hf]
  have hmem : (⟨m.nextId, k, v⟩ : Entry) ∈ (m.add k v).content := by
    rw [add_content]; exact List.mem_cons_self _ _
  have := findVal_of_mem (inv_add hinv v habs) hmem
  exact this

theorem insert_of_absent_sz {m : HashMap} (hinv : m.Inv) {k : Nat} (v : Nat)
    (habs : ∀ e ∈ m.content, e.key ≠ k) : (m.insert k v).sz = m.sz + 1 := by
  have hf : m.findId k = none := (findId_none_iff hinv).mpr habs
  simp only [HashMap.insert, hf]
  exact add_sz m k v

theorem findVal_congr_content {m m' : HashMap} (hinv : m.Inv) (hinv' : m'.Inv)
    (hcon : m.content = m'.content) (k : Nat) : m.findVal k = m'.findVal k := by
  by_cases hex : ∃ e ∈ m.content, e.key = k
  · obtain ⟨e, he, hkey⟩ := hex
    rw [← hkey, findVal_of_mem hinv he, findVal_of_mem hinv' (hcon ▸ he)]
  · push_neg at hex
    rw [(findVal_none_iff hinv).mpr hex, Eq.comm,
      (findVal_none_iff hinv').mpr (hcon ▸ hex)]

theorem insert_findVal_other {m : HashMap} (hinv : m.Inv) (k v k' : Nat)
    (hne : k' ≠ k) : (m.insert k v).findVal k' = m.findVal k' := by
  rcases hf : m.findId k with _ | id
  · simp only [HashMap.insert, hf]
    have hinv' := inv_add hinv v ((findId_none_iff hinv).mp hf)
    by_cases hex : ∃ e ∈ m.content, e.key = k'
    · obtain ⟨e, he, hkey⟩ := hex
      have hmem : e ∈ (m.add k v).content := by
        rw [add_content]; exact List.mem_cons_of_mem _ he
      rw [← hkey, findVal_of_mem hinv' hmem, findVal_of_mem hinv he]
    · push_neg at hex
      rw [(findVal_none_iff hinv).mpr hex, (findVal_none_iff hinv').mpr ?_]
      intro e he
      rw [add_content] at he
      rcases List.mem_cons.mp he with h1 | h1
      · rw [h1]; exact fun hcon => hne hcon.symm
      · exact hex e h1
  · simp only [HashMap.insert, hf]

theorem erase_of_absent {m : HashMap} (hinv : m.Inv) {k : Nat}
    (habs : ∀ e ∈ m.content, e.key ≠ k) : m.erase k = m := by
  have hf : m.findId k = none := (findId_none_iff hinv).mpr habs
  have hf' : (bucketGet m.table (m.bucketIdx k)).find? (m.entryMatches k) =
      none := hf
  simp only [HashMap.erase, hf']

theorem erase_spec_present {m : HashMap} (hinv : m.Inv) {k : Nat} {e : Entry}
    (he : e ∈ m.content) (hkey : e.key = k) :
    (m.erase k).findVal k = none ∧ m.sz = (m.erase k).sz + 1 ∧
      (∀ k', k' ≠ k → (m.erase k).findVal k' = m.findVal k') := by
  have hf : m.findId k = some e.id := by
    rw [← hkey]; exact findId_eq_some_of_mem hinv he
  have hf' : (bucketGet m.table (m.bucketIdx k)).find? (m.entryMatches k) =
      some e.id := hf
  have hinv' := inv_erase hinv k
  have hcon : (m.erase k).content = m.content.eraseP (fun x => x.id == e.id) := by
    simp only [HashMap.erase, hf']
  have hsz : (m.erase k).sz = m.sz - 1 := by
    simp only [HashMap.erase, hf']
  obtain ⟨e₀, L1, L2, hL1, hpe, hdec, hdec'⟩ :=
    List.exists_of_eraseP (p := fun x => x.id == e.id) he (by simp)
  have he₀ : e₀ = e := by
    refine List.inj_on_of_nodup_map hinv.idsNodup ?_ he (by simpa using hpe)
    rw [hdec]; exact List.mem_append_right _ (List.mem_cons_self _ _)
  subst he₀
  have henotin : e₀ ∉ L1 ++ L2 := by
    intro hmem
    have h1 : (m.content.map (fun x => x.id)).Nodup := hinv.idsNodup
    rw [hdec] at h1
    simp only [List.map_append, List.map_cons] at h1
    have h2 : List.count e₀.id ((L1 ++ e₀ :: L2).map (fun x => x.id)) = 1 := by
      refine List.count_eq_one_of_mem (by
        rw [List.map_append, List.map_cons]; exact h1) ?_
      rw [List.map_append, List.map_cons]
      exact List.mem_append_right _ (List.mem_cons_self _ _)
    have h3 : 1 ≤ List.count e₀.id ((L1 ++ L2).map (fun x => x.id)) :=
      List.one_le_count_iff.mpr (List.mem_map_of_mem _ hmem)
    rw [List.map_append, List.map_cons] at h2
    rw [List.map_append] at h3
    simp only [List.count_append, List.count_cons] at h2 h3
    simp at h2
    omega
  refine ⟨?_, ?_, ?_⟩
  · rw [findVal_none_iff hinv']
    intro e' he' hkey'
    rw [hcon, hdec'] at he'
    have he'mem : e' ∈ m.content := by
      rw [hdec]
      rcases List.mem_append.mp he' with h1 | h1
      · exact List.mem_append_left _ h1
      · exact List.mem_append_right _ (List.mem_cons_of_mem _ h1)
    have : e' = e₀ := List.inj_on_of_nodup_map hinv.keysNodup he'mem he
      (by rw [hkey', hkey])
    rw [this] at he'
    exact henotin he'
  · rw [hsz, hinv.szEq, hdec]
    simp only [List.length_append, List.length_cons]
    omega
  · intro k' hne
    by_cases hex : ∃ e' ∈ m.content, e'.key = k'
    · obtain ⟨e', he', hkey'⟩ := hex
      have hne' : e' ≠ e₀ := by
        intro hcontra
        rw [hcontra, hkey] at hkey'
        exact hne hkey'.symm
      have hmem' : e' ∈ (m.erase k).content := by
        rw [hcon, hdec']
        rw [hdec] at he'
        exact mem_of_mem_middle_of_ne he' hne'
      rw [← hkey', findVal_of_mem hinv' hmem', findVal_of_mem hinv he']
    · push_neg at hex
      rw [(findVal_none_iff hinv).mpr hex, (findVal_none_iff hinv').mpr ?_]
      intro e' he'
      refine hex e' ?_
      rw [hcon] at he'
      exact (List.eraseP_sublist m.content).subset he'

theorem insert_grow_eq {m : HashMap} {k : Nat} (v : Nat)
    (hf : m.findId k = none) (htrig : m.capacity ≤ m.sz + 1) :
    m.insert k v =
      ⟨m.hasher, ⟨m.nextId, k, v⟩ :: m.content,
        m.capacity * capacityInflation,
        fillTableAux m.hasher (m.capacity * capacityInflation)
          (⟨m.nextId, k, v⟩ :: m.content)
          (List.replicate (m.capacity * capacityInflation) []),
        m.sz + 1, m.nextId + 1⟩ := by
  simp only [HashMap.insert, hf, HashMap.add, HashMap.checkExpansion]
  rw [if_pos (show (m.pushRecord k v).capacity ≤ (m.pushRecord k v).sz from htrig)]
  rfl

theorem atKey_of_present {m : HashMap} (hinv : m.Inv) {e : Entry}
    (he : e ∈ m.content) : m.atKey e.key = Except.ok e.val := by
  rw [HashMap.atKey, findId_eq_some_of_mem hinv he]
  simp only [HashMap.derefVal, lookupId_of_mem hinv.idsNodup he]
  rfl

theorem atKey_of_absent {m : HashMap} (hinv : m.Inv) {k : Nat}
    (habs : ∀ e ∈ m.content, e.key ≠ k) :
    m.atKey k = Except.error "No such key exists in map" := by
  rw [HashMap.atKey, (findId_none_iff hinv).mpr habs]

theorem atKey_error_iff {m : HashMap} (hinv : m.Inv) (k : Nat) :
    m.atKey k = Except.error "No such key exists in map" ↔
      ∀ e ∈ m.content, e.key ≠ k := by
  constructor
  · intro herr e he hkey
    rw [← hkey, atKey_of_present hinv he] at herr
    exact Except.noConfusion herr
  · exact atKey_of_absent hinv

theorem subscriptRef_of_present {m : HashMap} (hinv : m.Inv) {k : Nat}
    {e : Entry} (he : e ∈ m.content) (hkey : e.key = k) :
    m.subscriptRef k = (m, e.id) := by
  have hf : m.findId k = some e.id := by
    rw [← hkey]; exact findId_eq_some_of_mem hinv he
  simp only [HashMap.subscriptRef, hf]

theorem subscriptRef_of_absent {m : HashMap} (hinv : m.Inv) {k : Nat}
    (habs : ∀ e ∈ m.content, e.key ≠ k) :
    m.subscriptRef k = (m.add k 0, m.nextId) := by
  have hf : m.findId k = none := (findId_none_iff hinv).mpr habs
  simp only [HashMap.subscriptRef, hf]
  rw [add_content]
  rfl

theorem derefVal_of_mem {m : HashMap} (hinv : m.Inv) {e : Entry}
    (he : e ∈ m.content) : m.derefVal e.id = e.val := by
  simp only [HashMap.derefVal, lookupId_of_mem hinv.idsNodup he]
  rfl

theorem writeVal_findVal {m : HashMap} (hinv : m.Inv) {e : Entry}
    (he : e ∈ m.content) (w : Nat) :
    (m.writeVal e.id w).findVal e.key = some w := by
  have hmem : (⟨e.id, e.key, w⟩ : Entry) ∈ (m.writeVal e.id w).content := by
    show _ ∈ m.content.map fun x =>
      if x.id == e.id then (⟨x.id, x.key, w⟩ : Entry) else x
    have : (⟨e.id, e.key, w⟩ : Entry) =
        (fun x => if x.id == e.id then (⟨x.id, x.key, w⟩ : Entry) else x) e := by
      simp
    rw [this]
    exact List.mem_map_of_mem _ he
  have := findVal_of_mem (inv_writeVal hinv e.id w) hmem
  exact this

theorem assign_hasher (a b : HashMap) : (a.assign b).hasher = a.hasher := by
  rw [HashMap.assign]
  split <;> rfl

theorem assign_content (a b : HashMap) : (a.assign b).content = b.content := by
  rw [HashMap.assign]
  split <;> rfl

theorem assign_sz (a b : HashMap) : (a.assign b).sz = b.sz := by
  rw [HashMap.assign]
  split <;> rfl

theorem copy_hasher (b : HashMap) : (b.copy).hasher = b.hasher := rfl

theorem copy_content (b : HashMap) : (b.copy).content = b.content := rfl

theorem copy_sz (b : HashMap) : (b.copy).sz = b.sz := rfl

/-! ### Size and capacity bounds -/

theorem checkExpansion_capacity_mono (m : HashMap) :
    m.capacity ≤ (m.checkExpansion).capacity := by
  rw [HashMap.checkExpansion]
  split
  · show m.capacity ≤ m.capacity * capacityInflation
    rw [capacityInflation]
    omega
  · exact Nat.le_refl _

theorem add_capacity_mono (m : HashMap) (k v : Nat) :
    m.capacity ≤ (m.add k v).capacity :=
  checkExpansion_capacity_mono (m.pushRecord k v)

theorem insert_capacity_mono (m : HashMap) (k v : Nat) :
    m.capacity ≤ (m.insert k v).capacity := by
  rcases hf : m.findId k with _ | id
  · simp only [HashMap.insert, hf]
    exact add_capacity_mono m k v
  · simp only [HashMap.insert, hf]
    exact Nat.le_refl _

theorem erase_capacity (m : HashMap) (k : Nat) :
    (m.erase k).capacity = m.capacity := by
  rw [HashMap.erase]
  rcases (bucketGet m.table (m.bucketIdx k)).find? (m.entryMatches k)
    with _ | id <;> rfl

theorem erase_sz_le (m : HashMap) (k : Nat) : (m.erase k).sz ≤ m.sz := by
  rw [HashMap.erase]
  rcases (bucketGet m.table (m.bucketIdx k)).find? (m.entryMatches k)
    with _ | id
  · exact Nat.le_refl _
  · exact Nat.sub_le _ _

theorem subscriptRef_capacity_mono (m : HashMap) (k : Nat) :
    m.capacity ≤ (m.subscriptRef k).1.capacity := by
  rcases hf : m.findId k with _ | id
  · simp only [HashMap.subscriptRef, hf]
    exact add_capacity_mono m k 0
  · simp only [HashMap.subscriptRef, hf]
    exact Nat.le_refl _

theorem assign_capacity_mono (a b : HashMap) :
    a.capacity ≤ (a.assign b).capacity := by
  rw [HashMap.assign]
  split
  · next h =>
    replace h : a.capacity < b.sz * capacityInflation := h
    exact Nat.le_of_lt h
  · exact Nat.le_refl _

theorem assign_capacity_sz (a b : HashMap) :
    b.sz ≤ (a.assign b).capacity := by
  rw [HashMap.assign]
  split
  · next h =>
    show b.sz ≤ b.sz * capacityInflation
    rw [capacityInflation]
    omega
  · next h =>
    replace h : ¬ a.capacity < b.sz * capacityInflation := h
    show b.sz ≤ a.capacity
    rw [capacityInflation] at h
    omega

theorem add_szcap {m : HashMap} (hpos : 0 < m.capacity)
    (hle : m.sz ≤ m.capacity) (k v : Nat) :
    (m.add k v).sz ≤ (m.add k v).capacity := by
  rw [HashMap.add, HashMap.checkExpansion]
  split
  · next h =>
    show m.sz + 1 ≤ m.capacity * capacityInflation
    rw [capacityInflation]
    omega
  · next h =>
    replace h : ¬ (m.capacity ≤ m.sz + 1) := h
    show m.sz + 1 ≤ m.capacity
    omega

theorem insert_szcap {m : HashMap} (hpos : 0 < m.capacity)
    (hle : m.sz ≤ m.capacity) (k v : Nat) :
    (m.insert k v).sz ≤ (m.insert k v).capacity := by
  rcases hf : m.findId k with _ | id
  · simp only [HashMap.insert, hf]
    exact add_szcap hpos hle k v
  · simp only [HashMap.insert, hf]
    exact hle

theorem fromRange_szcap (h : Nat → Nat) (l : List (Nat × Nat)) :
    0 < (HashMap.fromRange h l).capacity ∧
      (HashMap.fromRange h l).sz ≤ (HashMap.fromRange h l).capacity := by
  rw [HashMap.fromRange]
  have hgen : ∀ (l : List (Nat × Nat)) (m : HashMap),
      0 < m.capacity → m.sz ≤ m.capacity →
      0 < (l.foldl (fun m p => m.insert p.1 p.2) m).capacity ∧
        (l.foldl (fun m p => m.insert p.1 p.2) m).sz ≤
          (l.foldl (fun m p => m.insert p.1 p.2) m).capacity := by
    intro l
    induction l with
    | nil => intro m h1 h2; exact ⟨h1, h2⟩
    | cons p l ih =>
      intro m h1 h2
      rw [List.foldl_cons]
      exact ih _ (Nat.lt_of_lt_of_le h1 (insert_capacity_mono m p.1 p.2))
        (insert_szcap h1 h2 p.1 p.2)
  exact hgen l (HashMap.empty h) Nat.one_pos (Nat.zero_le 1)

theorem fromInitFold_szcap (l' : List (Nat × Nat)) (m : HashMap) :
    (l'.foldl (fun m p => match m.findId p.1 with
      | some _ => m
      | none => m.pushRecord p.1 p.2) m).sz ≤ m.sz + l'.length ∧
    (l'.foldl (fun m p => match m.findId p.1 with
      | some _ => m
      | none => m.pushRecord p.1 p.2) m).capacity = m.capacity := by
  induction l' generalizing m with
  | nil => exact ⟨Nat.le_refl _, rfl⟩
  | cons p l' ih =>
    rw [List.foldl_cons]
    rcases hf : m.findId p.1 with _ | id
    · have h1 := ih (m.pushRecord p.1 p.2)
      refine ⟨?_, h1.2⟩
      have : (m.pushRecord p.1 p.2).sz = m.sz + 1 := rfl
      rw [this] at h1
      calc _ ≤ m.sz + 1 + l'.length := h1.1
        _ = m.sz + (p :: l').length := by simp [List.length_cons]; omega
    · have h1 := ih m
      refine ⟨?_, h1.2⟩
      calc _ ≤ m.sz + l'.length := h1.1
        _ ≤ m.sz + (p :: l').length := by simp [List.length_cons]

theorem fromInit_szcap (h : Nat → Nat) (l : List (Nat × Nat)) :
    0 < (HashMap.fromInit h l).capacity ∧
      (HashMap.fromInit h l).sz ≤ (HashMap.fromInit h l).capacity := by
  rw [HashMap.fromInit]
  by_cases hl : l.isEmpty
  · rw [if_pos hl]
    exact ⟨Nat.one_pos, Nat.zero_le 1⟩
  · rw [if_neg hl]
    obtain ⟨h1, h2⟩ := fromInitFold_szcap l
      { hasher := h, content := [], capacity := l.length * capacityInflation,
        table := List.replicate (l.length * capacityInflation) [], sz := 0,
        nextId := 0 }
    have hlen : 0 < l.length := by
      rcases Nat.eq_zero_or_pos l.length with h0 | h0
      · rw [List.isEmpty_iff_length_eq_zero] at hl
        exact absurd h0 hl
      · exact h0
    constructor
    · rw [h2]
      show 0 < l.length * capacityInflation
      rw [capacityInflation]
      omega
    · rw [h2]
      refine h1.trans ?_
      show 0 + l.length ≤ l.length * capacityInflation
      rw [capacityInflation]
      omega

theorem copy_szcap (b : HashMap) :
    0 < (b.copy).capacity ∧ (b.copy).sz ≤ (b.copy).capacity := by
  rw [HashMap.copy]
  constructor
  · show 0 < if b.sz * capacityInflation = 0 then 1 else b.sz * capacityInflation
    split
    · exact Nat.one_pos
    · next hne => exact Nat.pos_of_ne_zero hne
  · show b.sz ≤ if b.sz * capacityInflation = 0 then 1 else b.sz * capacityInflation
    split
    · next hz =>
      rw [capacityInflation] at hz
      omega
    · show b.sz ≤ b.sz * capacityInflation
      rw [capacityInflation]
      omega

/-! ### Distinct-key counting -/

theorem insert_keysFinset (m : HashMap) (k v : Nat) :
    ((m.insert k v).content.map (fun e => e.key)).toFinset =
      insert k (m.content.map (fun e => e.key)).toFinset := by
  rcases hf : m.findId k with _ | id
  · simp only [HashMap.insert, hf]
    rw [add_content, List.map_cons, List.toFinset_cons]
  · simp only [HashMap.insert, hf]
    have hpred : m.entryMatches k id = true := List.find?_some hf
    obtain ⟨e, he, _, hkey⟩ := entryMatches_true hpred
    rw [Eq.comm]
    rw [Finset.insert_eq_self, List.mem_toFinset]
    rw [← hkey]
    exact List.mem_map_of_mem _ he

theorem foldInsert_keysFinset :
    ∀ (l : List (Nat × Nat)) (m : HashMap), m.Inv →
    ((l.foldl (fun m p => m.insert p.1 p.2) m).content.map
      (fun e => e.key)).toFinset =
      (m.content.map (fun e => e.key)).toFinset ∪ (l.map Prod.fst).toFinset := by
  intro l
  induction l with
  | nil =>
    intro m _
    simp
  | cons p l ih =>
    intro m hm
    rw [List.foldl_cons, ih _ (inv_insert hm p.1 p.2), insert_keysFinset m p.1 p.2]
    rw [List.map_cons, List.toFinset_cons]
    ext a
    simp only [Finset.mem_union, Finset.mem_insert]
    tauto

theorem fromRange_size_eq (h : Nat → Nat) (l : List (Nat × Nat)) :
    (HashMap.fromRange h l).size = (l.map Prod.fst).toFinset.card := by
  have hinv := inv_fromRange h l
  have hkeys := foldInsert_keysFinset l (HashMap.empty h) (inv_empty h)
  have hne : ((HashMap.empty h).content.map (fun e => e.key)).toFinset = ∅ := rfl
  rw [hne, Finset.empty_union] at hkeys
  have h1 : (HashMap.fromRange h l).size = (HashMap.fromRange h l).content.length :=
    hinv.szEq
  rw [HashMap.size] at h1 ⊢
  rw [h1]
  have h2 : (HashMap.fromRange h l).content.length =
      ((HashMap.fromRange h l).content.map (fun e => e.key)).length := by
    rw [List.length_map]
  rw [h2, ← List.toFinset_card_of_nodup hinv.keysNodup]
  rw [show (HashMap.fromRange h l).content.map (fun e => e.key) =
    ((l.foldl (fun m p => m.insert p.1 p.2) (HashMap.empty h)).content.map
      (fun e => e.key)) from rfl, hkeys]

theorem subscript_szcap {m : HashMap} (hpos : 0 < m.capacity)
    (hle : m.sz ≤ m.capacity) (k : Nat) :
    (m.subscriptRef k).1.sz ≤ (m.subscriptRef k).1.capacity := by
  rcases hf : m.findId k with _ | id
  · simp only [HashMap.subscriptRef, hf]
    exact add_szcap hpos hle k 0
  · simp only [HashMap.subscriptRef, hf]
    exact hle

/-! ### The claims -/

/-- C1: `insert(k, v)` on a present key leaves the table completely
unchanged (the stored value is not overwritten); on an absent key it adds
the pair `(k, v)` (the key becomes findable with value `v` and the size
grows by one); and for every sequence of inserts starting from the empty
table, `size()` equals the number of distinct keys inserted. -/
theorem spec_C1_insert :
    (∀ (m : HashMap) (k v : Nat), m.Inv → (∃ e ∈ m.content, e.key = k) →
      m.insert k v = m) ∧
    (∀ (m : HashMap) (k v : Nat), m.Inv → (∀ e ∈ m.content, e.key ≠ k) →
      (m.insert k v).findVal k = some v ∧ (m.insert k v).sz = m.sz + 1) ∧
    (∀ (h : Nat → Nat) (l : List (Nat × Nat)),
      (HashMap.fromRange h l).size = (l.map Prod.fst).toFinset.card) :=
  ⟨fun _ _ v hinv hpres => insert_of_present hinv v hpres,
   fun _ _ v hinv habs =>
     ⟨insert_of_absent_findVal hinv v habs, insert_of_absent_sz hinv v habs⟩,
   fromRange_size_eq⟩

/-- Witness for C1 at concrete inputs. -/
theorem spec_C1_insert_witness :
    ((HashMap.empty (fun k => k)).insert 1 5).insert 1 9 =
      (HashMap.empty (fun k => k)).insert 1 5 ∧
    ((HashMap.empty (fun k => k)).insert 1 5).findVal 1 = some 5 ∧
    ((HashMap.empty (fun k => k)).insert 1 5).sz =
      (HashMap.empty (fun k => k)).sz + 1 ∧
    (HashMap.fromRange (fun k => k) [(1, 2), (2, 3), (1, 4)]).size =
      ([(1, 2), (2, 3), (1, 4)].map Prod.fst).toFinset.card :=
  ⟨spec_C1_insert.1 _ 1 9 (by decide) (by decide),
   (spec_C1_insert.2.1 (HashMap.empty (fun k => k)) 1 5 (by decide)
     (by decide)).1,
   (spec_C1_insert.2.1 (HashMap.empty (fun k => k)) 1 5 (by decide)
     (by decide)).2,
   spec_C1_insert.2.2 (fun k => k) [(1, 2), (2, 3), (1, 4)]⟩

/-- C2: when an insert makes the size reach the capacity, growth doubles
the capacity and rebuilds only the bucket index (every record re-bucketed
at `hash(key) mod new_capacity`); the record store is the old store with
just the new record prepended; and every previously inserted key stays
findable with its correct value. -/
theorem spec_C2_growth (m : HashMap) (k v : Nat) (hinv : m.Inv)
    (habs : m.findId k = none) (htrig : m.sz + 1 = m.capacity) :
    (m.insert k v).capacity = m.capacity * 2 ∧
    (m.insert k v).content = ⟨m.nextId, k, v⟩ :: m.content ∧
    (∀ i, bucketGet (m.insert k v).table i =
      ((((⟨m.nextId, k, v⟩ : Entry) :: m.content).filter
        (fun e => m.hasher e.key % (m.capacity * 2) == i)).map
          (fun e => e.id))) ∧
    (∀ e ∈ m.content, (m.insert k v).findVal e.key = some e.val) := by
  have heq := insert_grow_eq v habs (by omega)
  refine ⟨?_, ?_, ?_, ?_⟩
  · rw [heq]
    show m.capacity * capacityInflation = m.capacity * 2
    rw [capacityInflation]
  · rw [heq]
  · intro i
    rw [heq]
    exact bucketGet_mkTable m.hasher (m.capacity * capacityInflation)
      (⟨m.nextId, k, v⟩ :: m.content)
      (Nat.mul_pos hinv.capPos (by norm_num [capacityInflation])) i
  · intro e he
    have hmem : e ∈ (m.insert k v).content := by
      rw [heq]
      exact List.mem_cons_of_mem _ he
    exact findVal_of_mem (inv_insert hinv k v) hmem

/-- Witness for C2: the second insert into a table of capacity 2 and size 1
does not trigger growth, so we use a fresh table of capacity 1: the first
insert triggers growth, and a second insert on the grown table (size 1,
capacity 2) triggers it again. -/
theorem spec_C2_growth_witness :
    (((HashMap.empty (fun k => k)).insert 1 2).insert 5 7).capacity =
      ((HashMap.empty (fun k => k)).insert 1 2).capacity * 2 ∧
    (((HashMap.empty (fun k => k)).insert 1 2).insert 5 7).findVal 1 =
      some 2 :=
  ⟨(spec_C2_growth ((HashMap.empty (fun k => k)).insert 1 2) 5 7 (by decide)
      (by decide) (by decide)).1,
   (spec_C2_growth ((HashMap.empty (fun k => k)).insert 1 2) 5 7 (by decide)
      (by decide) (by decide)).2.2.2 ⟨0, 1, 2⟩ (by decide)⟩

/-- C3: the representation invariant — index length equals capacity,
capacity positive, `sz` equals the record-store length and the total chain
length, node identities and keys duplicate-free, every live record
referenced exactly once by exactly one chain (the chain of
`hash(key) mod capacity`) — is established by every constructor and
preserved by every operation. -/
theorem spec_C3_invariant :
    (∀ h, (HashMap.empty h).Inv) ∧
    (∀ h l, (HashMap.fromRange h l).Inv) ∧
    (∀ h l, (HashMap.fromInit h l).Inv) ∧
    (∀ m : HashMap, m.Inv → (m.copy).Inv) ∧
    (∀ a b : HashMap, a.Inv → b.Inv → (a.assign b).Inv) ∧
    (∀ m : HashMap, m.Inv → (m.assignSelf).Inv) ∧
    (∀ (m : HashMap) (k v : Nat), m.Inv → (m.insert k v).Inv) ∧
    (∀ (m : HashMap) (k : Nat), m.Inv → (m.erase k).Inv) ∧
    (∀ (m : HashMap) (k : Nat), m.Inv → (m.subscriptRef k).1.Inv) ∧
    (∀ (m : HashMap) (id v : Nat), m.Inv → (m.writeVal id v).Inv) ∧
    (∀ m : HashMap, m.Inv → (m.clear).Inv) :=
  ⟨inv_empty, inv_fromRange, inv_fromInit,
   fun _ h => inv_copy h,
   fun _ _ ha hb => inv_assign ha hb,
   fun _ h => inv_assignSelf h,
   fun _ k v h => inv_insert h k v,
   fun _ k h => inv_erase h k,
   fun _ k h => inv_subscriptRef h k,
   fun _ id v h => inv_writeVal h id v,
   fun _ h => inv_clear h⟩

/-- Witness for C3 at concrete inputs. -/
theorem spec_C3_invariant_witness :
    (((HashMap.empty (fun k => k)).insert 5 7).insert 3 4).Inv ∧
    ((((HashMap.empty (fun k => k)).insert 5 7).insert 3 4).erase 5).Inv :=
  ⟨spec_C3_invariant.2.2.2.2.2.2.1 _ 3 4 (by decide),
   spec_C3_invariant.2.2.2.2.2.2.2.1 _ 5 (by decide)⟩

/-- C4: self-assignment `A = A` (the `this == &other` early return of
`operator=`) is a no-op on the logical contents: the size and every
key/value pair are unchanged. -/
theorem spec_C4_self_assign (m : HashMap) :
    (m.assignSelf).sz = m.sz ∧ ∀ k, (m.assignSelf).findVal k = m.findVal k :=
  ⟨rfl, fun _ => rfl⟩

/-- C5: `size <= capacity` holds after every constructor and after every
mutating operation, provided it held before (growth fires before the bound
would be violated). -/
theorem spec_C5_size_le_capacity :
    (∀ h, (HashMap.empty h).sz ≤ (HashMap.empty h).capacity) ∧
    (∀ h l, (HashMap.fromRange h l).sz ≤ (HashMap.fromRange h l).capacity) ∧
    (∀ h l, (HashMap.fromInit h l).sz ≤ (HashMap.fromInit h l).capacity) ∧
    (∀ b : HashMap, (b.copy).sz ≤ (b.copy).capacity) ∧
    (∀ a b : HashMap, (a.assign b).sz ≤ (a.assign b).capacity) ∧
    (∀ m : HashMap, m.sz ≤ m.capacity → (m.assignSelf).sz ≤ (m.assignSelf).capacity) ∧
    (∀ (m : HashMap) (k v : Nat), 0 < m.capacity → m.sz ≤ m.capacity →
      (m.insert k v).sz ≤ (m.insert k v).capacity) ∧
    (∀ (m : HashMap) (k : Nat), m.sz ≤ m.capacity →
      (m.erase k).sz ≤ (m.erase k).capacity) ∧
    (∀ (m : HashMap) (k : Nat), 0 < m.capacity → m.sz ≤ m.capacity →
      (m.subscriptRef k).1.sz ≤ (m.subscriptRef k).1.capacity) ∧
    (∀ (m : HashMap) (id v : Nat), m.sz ≤ m.capacity →
      (m.writeVal id v).sz ≤ (m.writeVal id v).capacity) ∧
    (∀ m : HashMap, (m.clear).sz ≤ (m.clear).capacity) :=
  ⟨fun _ => Nat.zero_le 1,
   fun h l => (fromRange_szcap h l).2,
   fun h l => (fromInit_szcap h l).2,
   fun b => (copy_szcap b).2,
   fun a b => by
     have h1 := assign_capacity_sz a b
     rw [assign_sz]
     exact h1,
   fun _ hle => hle,
   fun _ k v hpos hle => insert_szcap hpos hle k v,
   fun m k hle => by
     rw [erase_capacity]
     exact (erase_sz_le m k).trans hle,
   fun _ k hpos hle => subscript_szcap hpos hle k,
   fun _ _ _ hle => hle,
   fun m => Nat.zero_le _⟩

/-- Witness for C5 at concrete inputs. -/
theorem spec_C5_size_le_capacity_witness :
    (((HashMap.empty (fun k => k)).insert 3 4).sz ≤
      ((HashMap.empty (fun k => k)).insert 3 4).capacity) ∧
    ((((HashMap.empty (fun k => k)).insert 3 4).erase 3).sz ≤
      (((HashMap.empty (fun k => k)).insert 3 4).erase 3).capacity) :=
  ⟨spec_C5_size_le_capacity.2.2.2.2.2.2.1 (HashMap.empty (fun k => k)) 3 4
      (by decide) (by decide),
   spec_C5_size_le_capacity.2.2.2.2.2.2.2.1
      ((HashMap.empty (fun k => k)).insert 3 4) 3 (by decide)⟩

/-- C6: capacity is at least 1 after every constructor, and no operation
ever decreases it (copy-assignment only grows it; erase, clear, writes and
self-assignment leave it unchanged; insert and subscript can only grow it). -/
theorem spec_C6_capacity_monotone :
    (∀ h, 0 < (HashMap.empty h).capacity) ∧
    (∀ h l, 0 < (HashMap.fromRange h l).capacity) ∧
    (∀ h l, 0 < (HashMap.fromInit h l).capacity) ∧
    (∀ b : HashMap, 0 < (b.copy).capacity) ∧
    (∀ (m : HashMap) (k v : Nat), m.capacity ≤ (m.insert k v).capacity) ∧
    (∀ (m : HashMap) (k : Nat), (m.erase k).capacity = m.capacity) ∧
    (∀ (m : HashMap) (k : Nat), m.capacity ≤ (m.subscriptRef k).1.capacity) ∧
    (∀ (m : HashMap) (id v : Nat), (m.writeVal id v).capacity = m.capacity) ∧
    (∀ m : HashMap, (m.clear).capacity = m.capacity) ∧
    (∀ a b : HashMap, a.capacity ≤ (a.assign b).capacity) ∧
    (∀ m : HashMap, (m.assignSelf).capacity = m.capacity) :=
  ⟨fun _ => Nat.one_pos,
   fun h l => (fromRange_szcap h l).1,
   fun h l => (fromInit_szcap h l).1,
   fun b => (copy_szcap b).1,
   insert_capacity_mono,
   erase_capacity,
   subscriptRef_capacity_mono,
   fun _ _ _ => rfl,
   fun _ => rfl,
   assign_capacity_mono,
   fun _ => rfl⟩

/-- C7: `at(key)` returns the `KeyNotFound` error exactly when the key is
absent, and returns the stored value on a present key.  (Every other
operation of the embedding is a total function by construction; `atKey` is
the only one returning `Except`.) -/
theorem spec_C7_at (m : HashMap) (k : Nat) (hinv : m.Inv) :
    (m.atKey k = Except.error "No such key exists in map" ↔
      ∀ e ∈ m.content, e.key ≠ k) ∧
    (∀ e ∈ m.content, e.key = k → m.atKey k = Except.ok e.val) :=
  ⟨atKey_error_iff hinv k,
   fun e he hkey => by rw [← hkey]; exact atKey_of_present hinv he⟩

/-- Witness for C7 at concrete inputs. -/
theorem spec_C7_at_witness :
    ((HashMap.empty (fun k => k)).insert 1 5).atKey 2 =
      Except.error "No such key exists in map" ∧
    ((HashMap.empty (fun k => k)).insert 1 5).atKey 1 = Except.ok 5 :=
  ⟨(spec_C7_at ((HashMap.empty (fun k => k)).insert 1 5) 2 (by decide)).1.mpr
      (by decide),
   (spec_C7_at ((HashMap.empty (fun k => k)).insert 1 5) 1 (by decide)).2
      ⟨0, 1, 5⟩ (by decide) (by decide)⟩

/-- C8: `operator[]` on an absent key first inserts the key with the
default-constructed value (`0`) and returns a reference to that new value
— the key becomes findable and the size grows by one, and writing through
the returned reference is observed by a subsequent `find`; on a present key
it inserts nothing and returns a reference to the existing value, whose
mutation is observed by a subsequent `find`. -/
theorem spec_C8_subscript (m : HashMap) (k : Nat) (hinv : m.Inv) :
    ((∀ e ∈ m.content, e.key ≠ k) →
      m.subscriptRef k = (m.add k 0, m.nextId) ∧
      (m.subscriptRef k).1.findVal k = some 0 ∧
      (m.subscriptRef k).1.sz = m.sz + 1 ∧
      (∀ w, ((m.subscriptRef k).1.writeVal
        (m.subscriptRef k).2 w).findVal k = some w)) ∧
    (∀ e ∈ m.content, e.key = k →
      m.subscriptRef k = (m, e.id) ∧
      m.derefVal e.id = e.val ∧
      (∀ w, (m.writeVal e.id w).findVal k = some w)) := by
  constructor
  · intro habs
    have hsub := subscriptRef_of_absent hinv habs
    have hinv' := inv_add hinv 0 habs
    have hmem : (⟨m.nextId, k, 0⟩ : Entry) ∈ (m.add k 0).content := by
      rw [add_content]; exact List.mem_cons_self _ _
    refine ⟨hsub, ?_, ?_, ?_⟩
    · rw [hsub]
      exact findVal_of_mem hinv' hmem
    · rw [hsub]
      exact add_sz m k 0
    · intro w
      rw [hsub]
      exact writeVal_findVal hinv' hmem w
  · intro e he hkey
    refine ⟨subscriptRef_of_present hinv he hkey, derefVal_of_mem hinv he, ?_⟩
    intro w
    rw [← hkey]
    exact writeVal_findVal hinv he w

/-- Witness for C8 at concrete inputs. -/
theorem spec_C8_subscript_witness :
    (((HashMap.empty (fun k => k)).insert 1 5).subscriptRef 2).1.findVal 2 =
      some 0 ∧
    ((((HashMap.empty (fun k => k)).insert 1 5).subscriptRef 2).1.writeVal
      (((HashMap.empty (fun k => k)).insert 1 5).subscriptRef 2).2 9).findVal 2 =
      some 9 ∧
    (((HashMap.empty (fun k => k)).insert 1 5).writeVal 0 7).findVal 1 =
      some 7 :=
  ⟨((spec_C8_subscript ((HashMap.empty (fun k => k)).insert 1 5) 2
      (by decide)).1 (by decide)).2.1,
   ((spec_C8_subscript ((HashMap.empty (fun k => k)).insert 1 5) 2
      (by decide)).1 (by decide)).2.2.2 9,
   ((spec_C8_subscript ((HashMap.empty (fun k => k)).insert 1 5) 1
      (by decide)).2 ⟨0, 1, 5⟩ (by decide) (by decide)).2.2 7⟩

/-- C9: `erase(k)` on a present key removes the record with key `k` — a
subsequent `find(k)` returns absent, the size decreases by exactly one,
and every other key's lookup result is unchanged; on an absent key `erase`
is a complete no-op. -/
theorem spec_C9_erase (m : HashMap) (k : Nat) (hinv : m.Inv) :
    (∀ e ∈ m.content, e.key = k →
      (m.erase k).findVal k = none ∧ m.sz = (m.erase k).sz + 1 ∧
      (∀ k', k' ≠ k → (m.erase k).findVal k' = m.findVal k')) ∧
    ((∀ e ∈ m.content, e.key ≠ k) → m.erase k = m) :=
  ⟨fun _ he hkey => erase_spec_present hinv he hkey,
   fun habs => erase_of_absent hinv habs⟩

/-- Witness for C9 at concrete inputs. -/
theorem spec_C9_erase_witness :
    ((((HashMap.empty (fun k => k)).insert 1 5).insert 2 6).erase 1).findVal 1 =
      none ∧
    (((HashMap.empty (fun k => k)).insert 1 5).insert 2 6).sz =
      ((((HashMap.empty (fun k => k)).insert 1 5).insert 2 6).erase 1).sz + 1 ∧
    ((((HashMap.empty (fun k => k)).insert 1 5).insert 2 6).erase 1).findVal 2 =
      (((HashMap.empty (fun k => k)).insert 1 5).insert 2 6).findVal 2 ∧
    (((HashMap.empty (fun k => k)).insert 1 5).insert 2 6).erase 9 =
      ((HashMap.empty (fun k => k)).insert 1 5).insert 2 6 :=
  ⟨((spec_C9_erase (((HashMap.empty (fun k => k)).insert 1 5).insert 2 6) 1
      (by decide)).1 ⟨0, 1, 5⟩ (by decide) (by decide)).1,
   ((spec_C9_erase (((HashMap.empty (fun k => k)).insert 1 5).insert 2 6) 1
      (by decide)).1 ⟨0, 1, 5⟩ (by decide) (by decide)).2.1,
   ((spec_C9_erase (((HashMap.empty (fun k => k)).insert 1 5).insert 2 6) 1
      (by decide)).1 ⟨0, 1, 5⟩ (by decide) (by decide)).2.2 2 (by decide),
   (spec_C9_erase (((HashMap.empty (fun k => k)).insert 1 5).insert 2 6) 9
      (by decide)).2 (by decide)⟩

/-- C10: copy-assignment `A = B` (for distinct tables) replaces `A`'s
contents and size with `B`'s — afterwards every lookup on `A` agrees with
`B` — but never replaces `A`'s hash functor: `hash_function()` still
returns `A`'s own functor, whereas copy construction does copy the
source's functor. -/
theorem spec_C10_assign_frame (a b : HashMap) (ha : a.Inv) (hb : b.Inv) :
    (a.assign b).hash_function = a.hash_function ∧
    (b.copy).hash_function = b.hash_function ∧
    (a.assign b).content = b.content ∧
    (a.assign b).sz = b.sz ∧
    (∀ k, (a.assign b).findVal k = b.findVal k) :=
  ⟨assign_hasher a b, copy_hasher b, assign_content a b, assign_sz a b,
   fun k => findVal_congr_content (inv_assign ha hb) hb (assign_content a b) k⟩

/-- Witness for C10 at concrete inputs. -/
theorem spec_C10_assign_frame_witness :
    (((HashMap.empty (fun _ => 0)).insert 1 5).assign
      ((HashMap.empty (fun k => k)).insert 2 7)).sz =
      ((HashMap.empty (fun k => k)).insert 2 7).sz ∧
    (((HashMap.empty (fun _ => 0)).insert 1 5).assign
      ((HashMap.empty (fun k => k)).insert 2 7)).findVal 2 =
      ((HashMap.empty (fun k => k)).insert 2 7).findVal 2 ∧
    (((HashMap.empty (fun _ => 0)).insert 1 5).assign
      ((HashMap.empty (fun k => k)).insert 2 7)).hash_function =
      ((HashMap.empty (fun _ => 0)).insert 1 5).hash_function :=
  ⟨(spec_C10_assign_frame ((HashMap.empty (fun _ => 0)).insert 1 5)
      ((HashMap.empty (fun k => k)).insert 2 7) (by decide) (by decide)).2.2.2.1,
   (spec_C10_assign_frame ((HashMap.empty (fun _ => 0)).insert 1 5)
      ((HashMap.empty (fun k => k)).insert 2 7) (by decide) (by decide)).2.2.2.2 2,
   (spec_C10_assign_frame ((HashMap.empty (fun _ => 0)).insert 1 5)
      ((HashMap.empty (fun k => k)).insert 2 7) (by decide) (by decide)).1⟩
